import Mathlib

/-!
OpenBitfields: bit-range arithmetic and field accessors

A shallow embedding of `open_bitfields.hpp`.

* Storage words are natural numbers below `2 ^ bits T`.
* Every C++ integer operation is written out with its conversions: an operand
  narrower than `int` is promoted to `int`, results are reduced modulo the
  width of the type they are stored in, and an operation whose behaviour is
  undefined has no result (`none`).  Inside the initialiser of a `constexpr`
  variable such an operation makes the program ill-formed, so `none` there
  means that the member function cannot be instantiated.
* `int` and `unsigned int` are 32 bits wide, `uint64_t` is 64 bits wide.
-/

namespace OpenBitfields

/-! ## Machine integers -/

/-- The unsigned integral types named by the header as admissible storage. -/
inductive StorageType where
  | uint8_t
  | uint16_t
  | uint32_t
  | uint64_t
  deriving DecidableEq, Repr

/-- Value of `sizeof(T)`. -/
def sizeof : StorageType → Nat
  | .uint8_t => 1
  | .uint16_t => 2
  | .uint32_t => 4
  | .uint64_t => 8

/-- Number of bits of a storage word, `sizeof(T) * 8`. -/
def bits (T : StorageType) : Nat := sizeof T * 8

/-- Width of `int` and of `unsigned int`. -/
def INT_BITS : Nat := 32

/-- Smallest value of `int`. -/
def INT_MIN : Int := -(2 ^ 31)

/-- Largest value of `int`. -/
def INT_MAX : Int := 2 ^ 31 - 1

/-- Width of the type in which an operand of type `T` is computed with, after
integer promotion: `int` for `uint8_t` and `uint16_t`, `T` itself otherwise. -/
def promoted_bits : StorageType → Nat
  | .uint8_t => 32
  | .uint16_t => 32
  | .uint32_t => 32
  | .uint64_t => 64

/-- Conversion of an integer to `int` (two's complement, modulo `2 ^ 32`). -/
def to_int (x : Int) : Int := (x + 2 ^ 31) % 2 ^ 32 - 2 ^ 31

/-- Conversion of an integer to `uint64_t`. -/
def to_uint64 (x : Int) : Nat := (x % 2 ^ 64).toNat

/-- Conversion of a non-negative value to the storage type `T`. -/
def to_T (T : StorageType) (x : Nat) : Nat := x % 2 ^ bits T

/-- The expression `a << n` on an `int` left operand: undefined when the shift
count reaches the width of `int`, otherwise the product reduced to `int`. -/
def int_shl (a : Int) (n : Nat) : Option Int :=
  if n < INT_BITS then some (to_int (a * 2 ^ n)) else none

/-- The expression `a - b` on `int`: undefined on overflow. -/
def int_sub (a b : Int) : Option Int :=
  if INT_MIN ≤ a - b ∧ a - b ≤ INT_MAX then some (a - b) else none

/-- The expression `a << n` on a `uint64_t` left operand. -/
def uint64_shl (a n : Nat) : Option Nat :=
  if n < 64 then some ((a * 2 ^ n) % 2 ^ 64) else none

/-- The expression `a << n` on a left operand of type `T`: computed in the
promoted type, undefined when the shift count reaches that type's width.  The
result is the bit pattern of the promoted value. -/
def shl (T : StorageType) (a n : Nat) : Option Nat :=
  if n < promoted_bits T then some ((a * 2 ^ n) % 2 ^ promoted_bits T) else none

/-- The expression `a >> n` on a left operand of type `T`. -/
def shr (T : StorageType) (a n : Nat) : Option Nat :=
  if n < promoted_bits T then some (a / 2 ^ n) else none

/-- The expression `~a` on an operand of type `T`: the bit pattern of the
complement in the promoted type. -/
def bit_not (T : StorageType) (a : Nat) : Nat := 2 ^ promoted_bits T - 1 - a % 2 ^ promoted_bits T

/-- The expression `a + b` on operands of type `T`: the bit pattern of the sum
in the promoted type. -/
def add (T : StorageType) (a b : Nat) : Nat := (a + b) % 2 ^ promoted_bits T

/-- The expression `a - b` on operands of type `T`: the bit pattern of the
difference in the promoted type (two's complement for `int`). -/
def sub (T : StorageType) (a b : Nat) : Nat :=
  (a + (2 ^ promoted_bits T - b % 2 ^ promoted_bits T)) % 2 ^ promoted_bits T

/-- Whether an operand of type `T` is promoted to the signed type `int`. -/
def promotes_to_int : StorageType → Bool
  | .uint8_t => true
  | .uint16_t => true
  | .uint32_t => false
  | .uint64_t => false

/-- The expression `a * b` on operands of type `T`: an `int` product, undefined
on overflow, for `uint8_t` and `uint16_t`; a product modulo the width of the
type otherwise. -/
def mul (T : StorageType) (a b : Nat) : Option Nat :=
  if promotes_to_int T then
    if a * b < 2 ^ 31 then some (a * b) else none
  else some ((a * b) % 2 ^ promoted_bits T)

/-- The expression `a / b`: undefined when the divisor is zero. -/
def divide (a b : Nat) : Option Nat := if b = 0 then none else some (a / b)

/-- The expression `a % b`: undefined when the divisor is zero. -/
def modulo (a b : Nat) : Option Nat := if b = 0 then none else some (a % b)

/-! ## `contiguous_bitmask_definition` -/

/-- The class template `contiguous_bitmask_definition<T, START, LENGTH>`.
`START` and `LENGTH` are `unsigned int` template parameters; a value of the
class exists only if both `static_assert`s of the class body hold.  The sum
`START + LENGTH` is computed in `unsigned int`. -/
structure contiguous_bitmask_definition (T : StorageType) (START LENGTH : Nat) where
  length_pos : LENGTH > 0
  range_fits : (START + LENGTH) % 2 ^ INT_BITS ≤ sizeof T * 8

namespace contiguous_bitmask_definition

variable {T : StorageType} {START LENGTH : Nat}

/-- Member `bitmask()`:
`constexpr uint64_t max_value = (1 << LENGTH) - 1; return max_value << START;`
The literal `1` is an `int`, so the shift and the subtraction are `int`
operations; their result is converted to `uint64_t`, shifted as `uint64_t` and
converted to `T` on return. -/
def bitmask (_this : contiguous_bitmask_definition T START LENGTH) : Option Nat := do
  let shifted ← int_shl 1 LENGTH
  let minus_one ← int_sub shifted 1
  let max_value := to_uint64 minus_one
  let result ← uint64_shl max_value START
  pure (to_T T result)

/-- Member `extract_bits(in)`: `return in & bitmask();`. -/
def extract_bits (this : contiguous_bitmask_definition T START LENGTH) (inp : Nat) :
    Option Nat := do
  let mask ← this.bitmask
  pure (to_T T (inp &&& mask))

/-- Member `clear_bits(in)`: `return in & (~bitmask());`. -/
def clear_bits (this : contiguous_bitmask_definition T START LENGTH) (inp : Nat) :
    Option Nat := do
  let mask ← this.bitmask
  pure (to_T T (inp &&& bit_not T mask))

/-- Member `get_value(in)`:
`T temp = this->extract_bits(in); return (temp >> START);`. -/
def get_value (this : contiguous_bitmask_definition T START LENGTH) (inp : Nat) :
    Option Nat := do
  let temp ← this.extract_bits inp
  let shifted ← shr T temp START
  pure (to_T T shifted)

/-- Member `set_value(in_reg, in_value)`:
`T temp = in_value << START; temp = this->extract_bits(temp);
return this->clear_bits(in_reg) | temp;`. -/
def set_value (this : contiguous_bitmask_definition T START LENGTH) (in_reg in_value : Nat) :
    Option Nat := do
  let shifted ← shl T in_value START
  let temp := to_T T shifted
  let temp ← this.extract_bits temp
  let cleared ← this.clear_bits in_reg
  pure (to_T T (cleared ||| temp))

end contiguous_bitmask_definition

/-! ## `bitfield`

The only data member of `bitfield<DATASTORE_TYPE, START, LENGTH>` is the word
`m_data`, which inside the union is the storage word shared by all fields.
The member functions are written as functions of that word; a mutating member
returns the new content of the word.  The static member `bitfield_mask` is
passed explicitly. -/

namespace bitfield

variable {T : StorageType} {START LENGTH : Nat}

/-- Member `value()`: `return bitfield_mask.get_value(m_data);`. -/
def value (bitfield_mask : contiguous_bitmask_definition T START LENGTH) (m_data : Nat) :
    Option Nat :=
  bitfield_mask.get_value m_data

/-- Member `get()`: `return value();`. -/
def get (bitfield_mask : contiguous_bitmask_definition T START LENGTH) (m_data : Nat) :
    Option Nat :=
  value bitfield_mask m_data

/-- Member `set(in)`: `m_data = bitfield_mask.set_value(m_data, in);`. -/
def set (bitfield_mask : contiguous_bitmask_definition T START LENGTH) (m_data inp : Nat) :
    Option Nat :=
  bitfield_mask.set_value m_data inp

/-- Member `operator=(const DATASTORE_TYPE &in)`: `set(in); return *this;`. -/
def assign (bitfield_mask : contiguous_bitmask_definition T START LENGTH) (m_data inp : Nat) :
    Option Nat :=
  set bitfield_mask m_data inp

/-- Member `operator+=(in)`: `set(get() + in); return *this;`.  The sum is
computed in the promoted type and converted to `DATASTORE_TYPE` when it is
passed to `set`. -/
def add_assign (bitfield_mask : contiguous_bitmask_definition T START LENGTH)
    (m_data inp : Nat) : Option Nat := do
  let old ← get bitfield_mask m_data
  set bitfield_mask m_data (to_T T (add T old inp))

/-- Member `operator DATASTORE_TYPE()`: `return value();`. -/
def to_DATASTORE_TYPE (bitfield_mask : contiguous_bitmask_definition T START LENGTH)
    (m_data : Nat) : Option Nat :=
  value bitfield_mask m_data

/-- Member `operator=(const THIS_t &in)`: `set(in); return *this;`.  The
argument of `set` is a `DATASTORE_TYPE`, so `in` is converted through
`operator DATASTORE_TYPE()`; `src_data` is the word of `in`. -/
def assign_from (bitfield_mask : contiguous_bitmask_definition T START LENGTH)
    (m_data src_data : Nat) : Option Nat := do
  let inp ← to_DATASTORE_TYPE bitfield_mask src_data
  set bitfield_mask m_data inp

/-- Member `operator++()`: `set(get() + 1); return *this;`. -/
def inc (bitfield_mask : contiguous_bitmask_definition T START LENGTH) (m_data : Nat) :
    Option Nat := do
  let old ← get bitfield_mask m_data
  set bitfield_mask m_data (to_T T (add T old 1))

/-- Member `operator--()`: `set(get() - 1); return *this;`. -/
def dec (bitfield_mask : contiguous_bitmask_definition T START LENGTH) (m_data : Nat) :
    Option Nat := do
  let old ← get bitfield_mask m_data
  set bitfield_mask m_data (to_T T (sub T old 1))

/-- Member `operator-=(in)`: `set(get() - in); return *this;`. -/
def sub_assign (bitfield_mask : contiguous_bitmask_definition T START LENGTH)
    (m_data inp : Nat) : Option Nat := do
  let old ← get bitfield_mask m_data
  set bitfield_mask m_data (to_T T (sub T old inp))

/-- Member `operator*=(in)`: `set(get() * in); return *this;`. -/
def mul_assign (bitfield_mask : contiguous_bitmask_definition T START LENGTH)
    (m_data inp : Nat) : Option Nat := do
  let old ← get bitfield_mask m_data
  let product ← mul T old inp
  set bitfield_mask m_data (to_T T product)

/-- Member `operator/=(in)`: `set(get() / in); return *this;`. -/
def div_assign (bitfield_mask : contiguous_bitmask_definition T START LENGTH)
    (m_data inp : Nat) : Option Nat := do
  let old ← get bitfield_mask m_data
  let quotient ← divide old inp
  set bitfield_mask m_data (to_T T quotient)

/-- Member `operator%=(in)`: `set(get() % in); return *this;`. -/
def mod_assign (bitfield_mask : contiguous_bitmask_definition T START LENGTH)
    (m_data inp : Nat) : Option Nat := do
  let old ← get bitfield_mask m_data
  let remainder ← modulo old inp
  set bitfield_mask m_data (to_T T remainder)

/-- Member `operator|=(in)`: `set(get() | in); return *this;`. -/
def or_assign (bitfield_mask : contiguous_bitmask_definition T START LENGTH)
    (m_data inp : Nat) : Option Nat := do
  let old ← get bitfield_mask m_data
  set bitfield_mask m_data (to_T T (old ||| inp))

/-- Member `operator&=(in)`: `set(get() & in); return *this;`. -/
def and_assign (bitfield_mask : contiguous_bitmask_definition T START LENGTH)
    (m_data inp : Nat) : Option Nat := do
  let old ← get bitfield_mask m_data
  set bitfield_mask m_data (to_T T (old &&& inp))

/-- Member `operator^=(in)`: `set(get() ^ in); return *this;`. -/
def xor_assign (bitfield_mask : contiguous_bitmask_definition T START LENGTH)
    (m_data inp : Nat) : Option Nat := do
  let old ← get bitfield_mask m_data
  set bitfield_mask m_data (to_T T (old ^^^ inp))

/-- Member `operator~()`: `return ~get();`.  The result is the returned value
paired with the content of `m_data` afterwards; the body has no assignment. -/
def complement (bitfield_mask : contiguous_bitmask_definition T START LENGTH)
    (m_data : Nat) : Option (Nat × Nat) := do
  let old ← get bitfield_mask m_data
  pure (to_T T (bit_not T old), m_data)

end bitfield

/-! ## `bitfield_data_store_t` and the union built by the macros -/

/-- The class template `bitfield_data_store_t<TYPE>`, with its single member
`data`. -/
structure bitfield_data_store_t (TYPE : StorageType) where
  data : Nat
  deriving DecidableEq, Repr

namespace bitfield_data_store_t

variable {TYPE : StorageType}

/-- Value-initialisation `bitfield_data_store{}` through the defaulted default
constructor: `data` is zero-initialised. -/
def value_init : bitfield_data_store_t TYPE := ⟨0⟩

/-- The constructor `bitfield_data_store_t(TYPE in) : data(in) {}`. -/
def from_TYPE (inp : Nat) : bitfield_data_store_t TYPE := ⟨inp⟩

/-- Member `operator TYPE()`: `return data;`. -/
def to_TYPE (this : bitfield_data_store_t TYPE) : Nat := this.data

/-- Member `operator==(in)`: `return data == in.data;`. -/
def eq (this inp : bitfield_data_store_t TYPE) : Bool := this.data == inp.data

end bitfield_data_store_t

/-- A union declared with `OPEN_BITFIELD_STORAGE(TYPE)` and
`OPEN_BITFIELD_OPERATORS(NAME)`: its storage is the member
`bitfield_data_store`. -/
structure bitfield_union (TYPE : StorageType) where
  bitfield_data_store : bitfield_data_store_t TYPE
  deriving DecidableEq, Repr

namespace bitfield_union

variable {TYPE : StorageType}

/-- The constructor `NAME() = default;` with the member initialiser
`bitfield_data_store{}` of `OPEN_BITFIELD_STORAGE`. -/
def default_ctor : bitfield_union TYPE := ⟨bitfield_data_store_t.value_init⟩

/-- The constructor `NAME(const STORAGE_TYPE &in) : bitfield_data_store(in) {}`. -/
def from_STORAGE_TYPE (inp : Nat) : bitfield_union TYPE :=
  ⟨bitfield_data_store_t.from_TYPE inp⟩

/-- Member `operator STORAGE_TYPE()`: `return bitfield_data_store.data;`. -/
def to_STORAGE_TYPE (this : bitfield_union TYPE) : Nat := this.bitfield_data_store.data

/-- Member `operator=(const NAME &in)`:
`bitfield_data_store = in.bitfield_data_store; return *this;`. -/
def copy_assign (_this inp : bitfield_union TYPE) : bitfield_union TYPE :=
  ⟨inp.bitfield_data_store⟩

/-- Member `operator==(const STORAGE_TYPE &in)`:
`return bitfield_data_store == in;`, where `in` is converted by the
constructor of `bitfield_data_store_t`. -/
def eq (this : bitfield_union TYPE) (inp : Nat) : Bool :=
  this.bitfield_data_store.eq (bitfield_data_store_t.from_TYPE inp)

end bitfield_union


/-! ## Field declarations used below

Each declaration carries the proofs that both `static_assert`s of
`contiguous_bitmask_definition` hold for it. -/

/-- The range `contiguous_bitmask_definition<uint16_t, 2, 2>` of the comment on
`bitmask()`. -/
def field_u16_2_2 : contiguous_bitmask_definition .uint16_t 2 2 := ⟨by decide, by decide⟩

/-- The range `contiguous_bitmask_definition<uint8_t, 0, 4>`, mask `0x0f`. -/
def field_u8_0_4 : contiguous_bitmask_definition .uint8_t 0 4 := ⟨by decide, by decide⟩

/-- The range `contiguous_bitmask_definition<uint8_t, 4, 4>`, mask `0xf0`. -/
def field_u8_4_4 : contiguous_bitmask_definition .uint8_t 4 4 := ⟨by decide, by decide⟩

/-- The range `contiguous_bitmask_definition<uint8_t, 2, 3>`, mask `0x1c`. -/
def field_u8_2_3 : contiguous_bitmask_definition .uint8_t 2 3 := ⟨by decide, by decide⟩

/-- The range `contiguous_bitmask_definition<uint32_t, 16, 8>`, mask
`0x00ff0000`. -/
def field_u32_16_8 : contiguous_bitmask_definition .uint32_t 16 8 := ⟨by decide, by decide⟩

/-- The field `m0` of the `ProgramStatusRegister` example,
`OPEN_BITFIELD_OVERLAY(m0, 0, 1)`. -/
def field_u32_0_1 : contiguous_bitmask_definition .uint32_t 0 1 := ⟨by decide, by decide⟩

/-- The field `mode` of the `ProgramStatusRegister` example,
`OPEN_BITFIELD_OVERLAY(mode, 0, 5)`. -/
def field_u32_0_5 : contiguous_bitmask_definition .uint32_t 0 5 := ⟨by decide, by decide⟩

/-- The range `contiguous_bitmask_definition<uint32_t, 0, 31>`. -/
def field_u32_0_31 : contiguous_bitmask_definition .uint32_t 0 31 := ⟨by decide, by decide⟩

/-- The range `contiguous_bitmask_definition<uint32_t, 0, 32>`, the whole
32-bit word. -/
def field_u32_0_32 : contiguous_bitmask_definition .uint32_t 0 32 := ⟨by decide, by decide⟩

/-- The range `contiguous_bitmask_definition<uint64_t, 0, 64>`, the whole
64-bit word. -/
def field_u64_0_64 : contiguous_bitmask_definition .uint64_t 0 64 := ⟨by decide, by decide⟩

/-- The field `negative_bit` of the `ProgramStatusRegister` example,
`OPEN_BITFIELD_OVERLAY(negative_bit, 31, 1)`. -/
def field_u32_31_1 : contiguous_bitmask_definition .uint32_t 31 1 := ⟨by decide, by decide⟩

/-- The range `contiguous_bitmask_definition<uint16_t, 0, 16>`, the whole
16-bit word. -/
def field_u16_0_16 : contiguous_bitmask_definition .uint16_t 0 16 := ⟨by decide, by decide⟩

/-- The range `contiguous_bitmask_definition<uint16_t, 4, 8>`, mask `0x0ff0`. -/
def field_u16_4_8 : contiguous_bitmask_definition .uint16_t 4 8 := ⟨by decide, by decide⟩

/-- The range `contiguous_bitmask_definition<uint8_t, 4294967295, 1>`: the sum
`START + LENGTH` wraps to `0` in `unsigned int`, so the second `static_assert`
holds. -/
def field_u8_wrapped : contiguous_bitmask_definition .uint8_t 4294967295 1 :=
  ⟨by decide, by decide⟩

/-! ## Supporting facts about words and shifts -/

theorem bits_le_promoted_bits (T : StorageType) : bits T ≤ promoted_bits T := by
  cases T <;> decide

theorem promoted_bits_le (T : StorageType) : promoted_bits T ≤ 64 := by
  cases T <;> decide

theorem bits_le (T : StorageType) : bits T ≤ 64 := by
  cases T <;> decide

theorem testBit_of_lt_two_pow {w n i : Nat} (h : w < 2 ^ n) (hi : n ≤ i) :
    w.testBit i = false :=
  Nat.testBit_lt_two_pow (lt_of_lt_of_le h (Nat.pow_le_pow_right (by decide) hi))

theorem testBit_ones_shifted (S L i : Nat) :
    ((2 ^ L - 1) * 2 ^ S).testBit i = (decide (S ≤ i) && decide (i < S + L)) := by
  rw [← Nat.shiftLeft_eq, Nat.testBit_shiftLeft, Nat.testBit_two_pow_sub_one]
  by_cases h : S ≤ i
  · have : (i - S < L) ↔ (i < S + L) := by omega
    simp [h, this]
  · simp [h]

theorem ones_shifted_lt {S L n : Nat} (h : S + L ≤ n) : (2 ^ L - 1) * 2 ^ S < 2 ^ n := by
  apply Nat.lt_pow_two_of_testBit
  intro i hi
  rw [testBit_ones_shifted]
  have : ¬ i < S + L := by omega
  simp [this]

theorem int_shl_one_of_short {L : Nat} (h : L ≤ 30) :
    int_shl 1 L = some (((2 ^ L : Nat) : Int)) := by
  have hn : 2 ^ L ≤ 2 ^ 30 := Nat.pow_le_pow_right (by decide) h
  have hpos : 0 < 2 ^ L := Nat.pow_pos (by decide)
  unfold int_shl to_int INT_BITS
  rw [if_pos (by omega)]
  congr 1
  rw [one_mul]
  have hx : ((2 : Int) ^ L) = ((2 ^ L : Nat) : Int) := by push_cast; rfl
  rw [hx]
  generalize 2 ^ L = x at hn hpos
  omega

theorem int_sub_one_of_short {L : Nat} (h : L ≤ 30) :
    int_sub (((2 ^ L : Nat) : Int)) 1 = some (((2 ^ L - 1 : Nat) : Int)) := by
  have hn : 2 ^ L ≤ 2 ^ 30 := Nat.pow_le_pow_right (by decide) h
  have hpos : 0 < 2 ^ L := Nat.pow_pos (by decide)
  unfold int_sub INT_MIN INT_MAX
  generalize 2 ^ L = x at hn hpos
  rw [if_pos (by omega)]
  congr 1
  omega

theorem testBit_field_read (w S L j : Nat) :
    (w / 2 ^ S % 2 ^ L).testBit j = (decide (j < L) && w.testBit (S + j)) := by
  rw [← Nat.shiftRight_eq_div_pow, Nat.testBit_mod_two_pow, Nat.testBit_shiftRight]

theorem testBit_field_written {S L n w : Nat} (v i : Nat) (hfit : S + L ≤ n) (hw : w < 2 ^ n) :
    ((w &&& (2 ^ n - 1 - (2 ^ L - 1) * 2 ^ S)) ||| ((v % 2 ^ L) * 2 ^ S)).testBit i
      = if S ≤ i ∧ i < S + L then v.testBit (i - S) else w.testBit i := by
  have hm : (2 ^ L - 1) * 2 ^ S < 2 ^ n := ones_shifted_lt hfit
  have e2 : 2 ^ n - 1 - (2 ^ L - 1) * 2 ^ S = 2 ^ n - ((2 ^ L - 1) * 2 ^ S + 1) := by omega
  rw [e2]
  simp only [← Nat.shiftLeft_eq, Nat.testBit_or, Nat.testBit_and, Nat.testBit_shiftLeft]
  simp only [Nat.shiftLeft_eq, Nat.testBit_two_pow_sub_succ hm, testBit_ones_shifted,
    Nat.testBit_mod_two_pow]
  by_cases hi : i < n
  · by_cases hs : S ≤ i
    · by_cases hl : i < S + L
      · have h1 : i - S < L := by omega
        simp [hi, hs, hl, h1]
      · have h1 : ¬ i - S < L := by omega
        simp [hi, hs, hl, h1]
    · simp [hi, hs]
  · have hl : ¬ i < S + L := by omega
    have hwi : w.testBit i = false := testBit_of_lt_two_pow hw (by omega)
    by_cases hs : S ≤ i
    · have h1 : ¬ i - S < L := by omega
      simp [hi, hs, hl, h1, hwi]
    · simp [hi, hs, hwi]

theorem field_written_lt {S L n w : Nat} (v : Nat) (hfit : S + L ≤ n) (hw : w < 2 ^ n) :
    (w &&& (2 ^ n - 1 - (2 ^ L - 1) * 2 ^ S)) ||| ((v % 2 ^ L) * 2 ^ S) < 2 ^ n := by
  apply Nat.lt_pow_two_of_testBit
  intro i hi
  rw [testBit_field_written v i hfit hw]
  have hl : ¬ (S ≤ i ∧ i < S + L) := by omega
  rw [if_neg hl]
  exact testBit_of_lt_two_pow hw hi

theorem to_uint64_natCast {n : Nat} (h : n < 2 ^ 64) : to_uint64 (n : Int) = n := by
  unfold to_uint64
  omega

namespace contiguous_bitmask_definition

variable {T : StorageType} {START LENGTH : Nat}

/-- On a range that fits the storage word and is at most 30 bits long,
`bitmask()` is `LENGTH` ones shifted to bit `START`. -/
theorem bitmask_of_short (r : contiguous_bitmask_definition T START LENGTH)
    (hfit : START + LENGTH ≤ bits T) (hshort : LENGTH ≤ 30) :
    r.bitmask = some ((2 ^ LENGTH - 1) * 2 ^ START) := by
  have hpos := r.length_pos
  have h64 := bits_le T
  have hmax : 2 ^ LENGTH - 1 < 2 ^ 64 :=
    lt_of_le_of_lt (Nat.sub_le _ _) (Nat.pow_lt_pow_right (by decide) (by omega))
  unfold bitmask
  rw [int_shl_one_of_short hshort]
  simp only [Option.bind_eq_bind, Option.some_bind, int_sub_one_of_short hshort,
    to_uint64_natCast hmax]
  unfold uint64_shl to_T
  rw [if_pos (by omega)]
  simp only [Option.some_bind, Option.pure_def]
  rw [Nat.mod_eq_of_lt (ones_shifted_lt (by omega)), Nat.mod_eq_of_lt (ones_shifted_lt hfit)]

/-- On a short fitting range `extract_bits` keeps the bits under the mask. -/
theorem extract_bits_of_short (r : contiguous_bitmask_definition T START LENGTH)
    (hfit : START + LENGTH ≤ bits T) (hshort : LENGTH ≤ 30) {w : Nat} (hw : w < 2 ^ bits T) :
    r.extract_bits w = some (w &&& ((2 ^ LENGTH - 1) * 2 ^ START)) := by
  unfold extract_bits to_T
  rw [bitmask_of_short r hfit hshort]
  simp only [Option.bind_eq_bind, Option.some_bind, Option.pure_def]
  rw [Nat.mod_eq_of_lt (lt_of_le_of_lt Nat.and_le_left hw)]

/-- On a short fitting range `clear_bits` keeps the bits outside the mask. -/
theorem clear_bits_of_short (r : contiguous_bitmask_definition T START LENGTH)
    (hfit : START + LENGTH ≤ bits T) (hshort : LENGTH ≤ 30) (w : Nat) :
    r.clear_bits w = some (w &&& (2 ^ bits T - 1 - (2 ^ LENGTH - 1) * 2 ^ START)) := by
  have hbp := bits_le_promoted_bits T
  have hm : (2 ^ LENGTH - 1) * 2 ^ START < 2 ^ bits T := ones_shifted_lt hfit
  have hmp : (2 ^ LENGTH - 1) * 2 ^ START < 2 ^ promoted_bits T := ones_shifted_lt (by omega)
  unfold clear_bits to_T bit_not
  rw [bitmask_of_short r hfit hshort]
  simp only [Option.bind_eq_bind, Option.some_bind, Option.pure_def]
  congr 1
  apply Nat.eq_of_testBit_eq
  intro i
  have e1 : 2 ^ promoted_bits T - 1 - (2 ^ LENGTH - 1) * 2 ^ START % 2 ^ promoted_bits T
      = 2 ^ promoted_bits T - ((2 ^ LENGTH - 1) * 2 ^ START + 1) := by
    rw [Nat.mod_eq_of_lt hmp]; omega
  have e2 : 2 ^ bits T - 1 - (2 ^ LENGTH - 1) * 2 ^ START
      = 2 ^ bits T - ((2 ^ LENGTH - 1) * 2 ^ START + 1) := by omega
  rw [e1, e2]
  simp only [Nat.testBit_mod_two_pow, Nat.testBit_and, Nat.testBit_two_pow_sub_succ hmp,
    Nat.testBit_two_pow_sub_succ hm]
  by_cases hi : i < bits T
  · have hip : i < promoted_bits T := by omega
    simp [hi, hip]
  · simp [hi]

/-- On a short fitting range `get_value` is the field, right-aligned. -/
theorem get_value_of_short (r : contiguous_bitmask_definition T START LENGTH)
    (hfit : START + LENGTH ≤ bits T) (hshort : LENGTH ≤ 30) {w : Nat} (hw : w < 2 ^ bits T) :
    r.get_value w = some (w / 2 ^ START % 2 ^ LENGTH) := by
  have hbp := bits_le_promoted_bits T
  have hpos := r.length_pos
  unfold get_value shr to_T
  rw [extract_bits_of_short r hfit hshort hw]
  simp only [Option.bind_eq_bind, Option.some_bind, Option.pure_def]
  rw [if_pos (by omega)]
  simp only [Option.some_bind]
  congr 1
  apply Nat.eq_of_testBit_eq
  intro i
  simp only [← Nat.shiftRight_eq_div_pow, Nat.testBit_mod_two_pow, Nat.testBit_shiftRight,
    Nat.testBit_and, testBit_ones_shifted]
  by_cases hi : i < LENGTH
  · by_cases hb : i < bits T
    · have h1 : START + i < START + LENGTH := by omega
      simp [hi, hb, h1]
    · omega
  · have h1 : ¬ START + i < START + LENGTH := by omega
    simp [hi, h1]

/-- On a short fitting range `set_value` replaces the field by the low
`LENGTH` bits of the value and keeps every other bit of the word. -/
theorem set_value_of_short (r : contiguous_bitmask_definition T START LENGTH)
    (hfit : START + LENGTH ≤ bits T) (hshort : LENGTH ≤ 30) (w v : Nat) :
    r.set_value w v = some ((w &&& (2 ^ bits T - 1 - (2 ^ LENGTH - 1) * 2 ^ START))
      ||| ((v % 2 ^ LENGTH) * 2 ^ START)) := by
  have hbp := bits_le_promoted_bits T
  have hpos := r.length_pos
  have hm : (2 ^ LENGTH - 1) * 2 ^ START < 2 ^ bits T := ones_shifted_lt hfit
  have htemp : to_T T (v * 2 ^ START % 2 ^ promoted_bits T) < 2 ^ bits T :=
    Nat.mod_lt _ (Nat.pow_pos (by decide))
  unfold set_value shl
  rw [if_pos (by omega)]
  simp only [Option.bind_eq_bind, Option.some_bind, Option.pure_def,
    extract_bits_of_short r hfit hshort htemp, clear_bits_of_short r hfit hshort w]
  congr 1
  unfold to_T
  apply Nat.eq_of_testBit_eq
  intro i
  have e2 : 2 ^ bits T - 1 - (2 ^ LENGTH - 1) * 2 ^ START
      = 2 ^ bits T - ((2 ^ LENGTH - 1) * 2 ^ START + 1) := by omega
  rw [e2]
  simp only [← Nat.shiftLeft_eq, Nat.testBit_mod_two_pow, Nat.testBit_or, Nat.testBit_and,
    Nat.testBit_shiftLeft]
  simp only [Nat.shiftLeft_eq, Nat.testBit_two_pow_sub_succ hm, testBit_ones_shifted,
    Nat.testBit_mod_two_pow]
  by_cases hi : i < bits T
  · have hip : i < promoted_bits T := by omega
    by_cases hs : START ≤ i
    · by_cases hl : i < START + LENGTH
      · have h1 : i - START < LENGTH := by omega
        simp [hi, hip, hs, hl, h1]
      · have h1 : ¬ i - START < LENGTH := by omega
        simp [hi, hip, hs, hl, h1]
    · simp [hi, hip, hs]
  · have hl : ¬ i < START + LENGTH := by omega
    by_cases hs : START ≤ i
    · have h1 : ¬ i - START < LENGTH := by omega
      simp [hi, hs, hl, h1]
    · simp [hi, hs]

/-- A field longer than 30 bits has no mask: `1 << LENGTH` is an `int` shift,
so `LENGTH = 31` overflows in the subtraction and `LENGTH ≥ 32` is not a
defined shift. -/
theorem bitmask_of_long (r : contiguous_bitmask_definition T START LENGTH)
    (hlong : 30 < LENGTH) : r.bitmask = none := by
  unfold bitmask
  by_cases h : LENGTH < 32
  · have e : LENGTH = 31 := by omega
    subst e
    have e1 : int_shl 1 31 = some (-(2 ^ 31)) := by
      unfold int_shl to_int INT_BITS
      norm_num
    have e2 : int_sub (-(2 ^ 31)) 1 = none := by
      unfold int_sub INT_MIN INT_MAX
      norm_num
    rw [e1, Option.bind_eq_bind, Option.some_bind, e2, Option.none_bind]
  · have e1 : int_shl 1 LENGTH = none := by
      unfold int_shl INT_BITS
      rw [if_neg h]
    simp [e1]

theorem extract_bits_of_long (r : contiguous_bitmask_definition T START LENGTH)
    (hlong : 30 < LENGTH) (w : Nat) : r.extract_bits w = none := by
  simp [extract_bits, bitmask_of_long r hlong]

theorem clear_bits_of_long (r : contiguous_bitmask_definition T START LENGTH)
    (hlong : 30 < LENGTH) (w : Nat) : r.clear_bits w = none := by
  simp [clear_bits, bitmask_of_long r hlong]

theorem get_value_of_long (r : contiguous_bitmask_definition T START LENGTH)
    (hlong : 30 < LENGTH) (w : Nat) : r.get_value w = none := by
  simp [get_value, extract_bits_of_long r hlong]

theorem set_value_of_long (r : contiguous_bitmask_definition T START LENGTH)
    (hlong : 30 < LENGTH) (w v : Nat) : r.set_value w v = none := by
  unfold set_value
  cases shl T v START <;> simp [extract_bits_of_long r hlong]

/-- Round trip on a short fitting range: reading after writing gives the low
`LENGTH` bits of the written value. -/
theorem get_set_value_of_short (r : contiguous_bitmask_definition T START LENGTH)
    (hfit : START + LENGTH ≤ bits T) (hshort : LENGTH ≤ 30) {w : Nat} (hw : w < 2 ^ bits T)
    (v : Nat) : (r.set_value w v).bind r.get_value = some (v % 2 ^ LENGTH) := by
  rw [set_value_of_short r hfit hshort, Option.some_bind,
    get_value_of_short r hfit hshort (field_written_lt v hfit hw)]
  congr 1
  apply Nat.eq_of_testBit_eq
  intro i
  rw [testBit_field_read, testBit_field_written v _ hfit hw, Nat.testBit_mod_two_pow]
  by_cases hi : i < LENGTH
  · have h1 : START ≤ START + i ∧ START + i < START + LENGTH := by omega
    simp [hi, h1]
  · simp [hi]

/-- Writing back the value just read, on a short fitting range, gives the
same word. -/
theorem set_get_value_of_short (r : contiguous_bitmask_definition T START LENGTH)
    (hfit : START + LENGTH ≤ bits T) (hshort : LENGTH ≤ 30) {w : Nat} (hw : w < 2 ^ bits T) :
    (r.get_value w).bind (r.set_value w) = some w := by
  rw [get_value_of_short r hfit hshort hw, Option.some_bind, set_value_of_short r hfit hshort]
  congr 1
  apply Nat.eq_of_testBit_eq
  intro i
  rw [testBit_field_written _ i hfit hw, testBit_field_read]
  by_cases h : START ≤ i ∧ i < START + LENGTH
  · have h1 : i - START < LENGTH := by omega
    have h2 : START + (i - START) = i := by omega
    simp [h, h1, h2]
  · simp [h]

/-- The two selections of a word, on a short fitting range, are disjoint and
together give the word back. -/
theorem extract_clear_of_short (r : contiguous_bitmask_definition T START LENGTH)
    (hfit : START + LENGTH ≤ bits T) (hshort : LENGTH ≤ 30) {w : Nat} (hw : w < 2 ^ bits T) :
    ∃ e c, r.extract_bits w = some e ∧ r.clear_bits w = some c ∧ e ||| c = w ∧ e &&& c = 0 := by
  have hm : (2 ^ LENGTH - 1) * 2 ^ START < 2 ^ bits T := ones_shifted_lt hfit
  have e2 : 2 ^ bits T - 1 - (2 ^ LENGTH - 1) * 2 ^ START
      = 2 ^ bits T - ((2 ^ LENGTH - 1) * 2 ^ START + 1) := by omega
  refine ⟨_, _, extract_bits_of_short r hfit hshort hw, clear_bits_of_short r hfit hshort w, ?_, ?_⟩
  · apply Nat.eq_of_testBit_eq
    intro i
    rw [e2]
    simp only [Nat.testBit_or, Nat.testBit_and, Nat.testBit_two_pow_sub_succ hm]
    by_cases hi : i < bits T
    · cases w.testBit i <;> cases ((2 ^ LENGTH - 1) * 2 ^ START).testBit i <;> simp [hi]
    · simp [testBit_of_lt_two_pow hw (Nat.le_of_not_lt hi)]
  · apply Nat.eq_of_testBit_eq
    intro i
    rw [e2]
    simp only [Nat.testBit_and, Nat.testBit_two_pow_sub_succ hm, Nat.zero_testBit]
    cases w.testBit i <;> cases ((2 ^ LENGTH - 1) * 2 ^ START).testBit i <;> simp

end contiguous_bitmask_definition

/-! ## Acceptance of a range -/

/-- When `START + LENGTH` does not wrap in `unsigned int`, a range is accepted
exactly if it is non-empty and fits the storage word. -/
theorem nonempty_iff_of_no_wrap (T : StorageType) {START LENGTH : Nat}
    (h : START + LENGTH < 2 ^ INT_BITS) :
    Nonempty (contiguous_bitmask_definition T START LENGTH)
      ↔ (1 ≤ LENGTH ∧ START + LENGTH ≤ bits T) := by
  constructor
  · rintro ⟨r⟩
    have h2 := r.range_fits
    rw [Nat.mod_eq_of_lt h] at h2
    exact ⟨r.length_pos, h2⟩
  · rintro ⟨h1, h2⟩
    refine ⟨⟨h1, ?_⟩⟩
    rw [Nat.mod_eq_of_lt h]
    exact h2

/-- A `bitfield<DATASTORE_TYPE, START, LENGTH>` takes `START` and `LENGTH` as
`uint16_t`, so its `bitfield_mask` exists exactly if the field is non-empty
and fits the storage word. -/
theorem bitfield_mask_nonempty_iff (T : StorageType) {START LENGTH : Nat}
    (hs : START < 2 ^ 16) (hl : LENGTH < 2 ^ 16) :
    Nonempty (contiguous_bitmask_definition T START LENGTH)
      ↔ (1 ≤ LENGTH ∧ START + LENGTH ≤ bits T) :=
  nonempty_iff_of_no_wrap T (by unfold INT_BITS; omega)

/-! ## Compound addition on a short field -/

/-- On a short fitting field `+=` stores the sum modulo `2 ^ LENGTH` and keeps
the bits outside the field. -/
theorem add_assign_of_short {T : StorageType} {START LENGTH : Nat}
    (r : contiguous_bitmask_definition T START LENGTH)
    (hfit : START + LENGTH ≤ bits T) (hshort : LENGTH ≤ 30) {w : Nat} (hw : w < 2 ^ bits T)
    (x : Nat) :
    ∃ old w1, bitfield.value r w = some old ∧ bitfield.add_assign r w x = some w1
      ∧ bitfield.value r w1 = some ((old + x) % 2 ^ LENGTH)
      ∧ r.clear_bits w1 = r.clear_bits w := by
  have hbp := bits_le_promoted_bits T
  have hold := contiguous_bitmask_definition.get_value_of_short r hfit hshort hw
  have hset := contiguous_bitmask_definition.set_value_of_short r hfit hshort w
    (to_T T (add T (w / 2 ^ START % 2 ^ LENGTH) x))
  refine ⟨w / 2 ^ START % 2 ^ LENGTH,
    (w &&& (2 ^ bits T - 1 - (2 ^ LENGTH - 1) * 2 ^ START))
      ||| ((to_T T (add T (w / 2 ^ START % 2 ^ LENGTH) x) % 2 ^ LENGTH) * 2 ^ START),
    hold, ?_, ?_, ?_⟩
  · unfold bitfield.add_assign bitfield.get bitfield.value bitfield.set
    rw [hold]
    exact hset
  · have hrt := contiguous_bitmask_definition.get_set_value_of_short r hfit hshort hw
      (to_T T (add T (w / 2 ^ START % 2 ^ LENGTH) x))
    rw [hset, Option.some_bind] at hrt
    unfold bitfield.value
    rw [hrt]
    congr 1
    unfold to_T add
    rw [Nat.mod_mod_of_dvd _ (Nat.pow_dvd_pow 2 (by omega : LENGTH ≤ bits T)),
      Nat.mod_mod_of_dvd _ (Nat.pow_dvd_pow 2 (by omega : LENGTH ≤ promoted_bits T))]
  · rw [contiguous_bitmask_definition.clear_bits_of_short r hfit hshort,
      contiguous_bitmask_definition.clear_bits_of_short r hfit hshort]
    congr 1
    have hm : (2 ^ LENGTH - 1) * 2 ^ START < 2 ^ bits T := ones_shifted_lt hfit
    have e2 : 2 ^ bits T - 1 - (2 ^ LENGTH - 1) * 2 ^ START
        = 2 ^ bits T - ((2 ^ LENGTH - 1) * 2 ^ START + 1) := by omega
    apply Nat.eq_of_testBit_eq
    intro i
    rw [Nat.testBit_and, Nat.testBit_and, testBit_field_written _ i hfit hw, e2,
      Nat.testBit_two_pow_sub_succ hm, testBit_ones_shifted]
    by_cases h : START ≤ i ∧ i < START + LENGTH
    · simp [h]
    · simp [h]

/-! ## Writing a value into a short field -/

/-- A value returned by `get_value` is a value of the storage type. -/
theorem get_value_lt_two_pow_bits {T : StorageType} {START LENGTH : Nat}
    (r : contiguous_bitmask_definition T START LENGTH) {w g : Nat}
    (h : r.get_value w = some g) : g < 2 ^ bits T := by
  unfold contiguous_bitmask_definition.get_value at h
  simp only [Option.bind_eq_bind, Option.bind_eq_some, Option.pure_def, Option.some.injEq] at h
  obtain ⟨_, _, sh, _, hg⟩ := h
  rw [← hg]
  exact Nat.mod_lt _ (Nat.pow_pos (by decide))

/-- On a short fitting field `set` returns a word of the storage type that
reads back as the low `LENGTH` bits of the value and agrees with the old word
outside the field. -/
theorem set_of_short {T : StorageType} {START LENGTH : Nat}
    (r : contiguous_bitmask_definition T START LENGTH)
    (hfit : START + LENGTH ≤ bits T) (hshort : LENGTH ≤ 30) {w : Nat} (hw : w < 2 ^ bits T)
    (v : Nat) :
    ∃ w1, bitfield.set r w v = some w1 ∧ w1 < 2 ^ bits T
      ∧ bitfield.value r w1 = some (v % 2 ^ LENGTH)
      ∧ r.clear_bits w1 = r.clear_bits w
      ∧ ∀ i, ¬ (START ≤ i ∧ i < START + LENGTH) → w1.testBit i = w.testBit i := by
  have hset := contiguous_bitmask_definition.set_value_of_short r hfit hshort w v
  have hrt := contiguous_bitmask_definition.get_set_value_of_short r hfit hshort hw v
  rw [hset, Option.some_bind] at hrt
  have hm : (2 ^ LENGTH - 1) * 2 ^ START < 2 ^ bits T := ones_shifted_lt hfit
  have e2 : 2 ^ bits T - 1 - (2 ^ LENGTH - 1) * 2 ^ START
      = 2 ^ bits T - ((2 ^ LENGTH - 1) * 2 ^ START + 1) := by omega
  refine ⟨_, hset, field_written_lt v hfit hw, hrt, ?_, ?_⟩
  · rw [contiguous_bitmask_definition.clear_bits_of_short r hfit hshort,
      contiguous_bitmask_definition.clear_bits_of_short r hfit hshort]
    congr 1
    apply Nat.eq_of_testBit_eq
    intro i
    rw [Nat.testBit_and, Nat.testBit_and, testBit_field_written _ i hfit hw, e2,
      Nat.testBit_two_pow_sub_succ hm, testBit_ones_shifted]
    by_cases h : START ≤ i ∧ i < START + LENGTH
    · simp [h]
    · simp [h]
  · intro i hi
    rw [testBit_field_written v i hfit hw, if_neg hi]

/-- The complement of a value of the storage type, computed in the promoted
type and converted back, is the complement at the width of the storage type. -/
theorem to_T_bit_not (T : StorageType) {g : Nat} (hg : g < 2 ^ bits T) :
    to_T T (bit_not T g) = 2 ^ bits T - 1 - g := by
  cases T <;> simp only [to_T, bit_not, bits, sizeof, promoted_bits] at hg ⊢ <;> omega

/-! ## Division and modulo on a short field -/

/-- On a short fitting field `/=` has no result for the divisor `0`; for any
other divisor it stores the quotient and keeps the bits outside the field. -/
theorem div_assign_of_short {T : StorageType} {START LENGTH : Nat}
    (r : contiguous_bitmask_definition T START LENGTH)
    (hfit : START + LENGTH ≤ bits T) (hshort : LENGTH ≤ 30) {w : Nat} (hw : w < 2 ^ bits T)
    (x : Nat) :
    (x = 0 → bitfield.div_assign r w x = none)
      ∧ (x ≠ 0 → ∃ old w1, bitfield.value r w = some old
          ∧ bitfield.div_assign r w x = some w1
          ∧ bitfield.value r w1 = some (old / x)
          ∧ ∀ i, ¬ (START ≤ i ∧ i < START + LENGTH) → w1.testBit i = w.testBit i) := by
  have hold := contiguous_bitmask_definition.get_value_of_short r hfit hshort hw
  have hlt : w / 2 ^ START % 2 ^ LENGTH < 2 ^ LENGTH := Nat.mod_lt _ (Nat.pow_pos (by decide))
  have hpow : 2 ^ LENGTH ≤ 2 ^ bits T := Nat.pow_le_pow_right (by decide) (by omega)
  constructor
  · intro hx
    unfold bitfield.div_assign bitfield.get bitfield.value divide
    rw [hold]
    simp only [Option.bind_eq_bind, Option.some_bind, if_pos hx, Option.none_bind]
  · intro hx
    have hq : w / 2 ^ START % 2 ^ LENGTH / x < 2 ^ LENGTH :=
      lt_of_le_of_lt (Nat.div_le_self _ _) hlt
    obtain ⟨w1, h1, _, h2, _, h3⟩ := set_of_short r hfit hshort hw
      (to_T T (w / 2 ^ START % 2 ^ LENGTH / x))
    refine ⟨_, w1, hold, ?_, ?_, h3⟩
    · unfold bitfield.div_assign bitfield.get bitfield.value divide
      rw [hold]
      simp only [Option.bind_eq_bind, Option.some_bind, if_neg hx]
      exact h1
    · rw [h2]
      unfold to_T
      rw [Nat.mod_eq_of_lt (lt_of_lt_of_le hq hpow), Nat.mod_eq_of_lt hq]

/-- On a short fitting field `%=` has no result for the divisor `0`; for any
other divisor it stores the remainder and keeps the bits outside the field. -/
theorem mod_assign_of_short {T : StorageType} {START LENGTH : Nat}
    (r : contiguous_bitmask_definition T START LENGTH)
    (hfit : START + LENGTH ≤ bits T) (hshort : LENGTH ≤ 30) {w : Nat} (hw : w < 2 ^ bits T)
    (x : Nat) :
    (x = 0 → bitfield.mod_assign r w x = none)
      ∧ (x ≠ 0 → ∃ old w1, bitfield.value r w = some old
          ∧ bitfield.mod_assign r w x = some w1
          ∧ bitfield.value r w1 = some (old % x)
          ∧ ∀ i, ¬ (START ≤ i ∧ i < START + LENGTH) → w1.testBit i = w.testBit i) := by
  have hold := contiguous_bitmask_definition.get_value_of_short r hfit hshort hw
  have hlt : w / 2 ^ START % 2 ^ LENGTH < 2 ^ LENGTH := Nat.mod_lt _ (Nat.pow_pos (by decide))
  have hpow : 2 ^ LENGTH ≤ 2 ^ bits T := Nat.pow_le_pow_right (by decide) (by omega)
  constructor
  · intro hx
    unfold bitfield.mod_assign bitfield.get bitfield.value modulo
    rw [hold]
    simp only [Option.bind_eq_bind, Option.some_bind, if_pos hx, Option.none_bind]
  · intro hx
    have hq : w / 2 ^ START % 2 ^ LENGTH % x < 2 ^ LENGTH :=
      lt_of_le_of_lt (Nat.mod_le _ _) hlt
    obtain ⟨w1, h1, _, h2, _, h3⟩ := set_of_short r hfit hshort hw
      (to_T T (w / 2 ^ START % 2 ^ LENGTH % x))
    refine ⟨_, w1, hold, ?_, ?_, h3⟩
    · unfold bitfield.mod_assign bitfield.get bitfield.value modulo
      rw [hold]
      simp only [Option.bind_eq_bind, Option.some_bind, if_neg hx]
      exact h1
    · rw [h2]
      unfold to_T
      rw [Nat.mod_eq_of_lt (lt_of_lt_of_le hq hpow), Nat.mod_eq_of_lt hq]

/-- On a short fitting field the members `value`, `set`, `++`, `--`, `+=`,
`-=`, `|=`, `&=`, `^=` and `~` all return. -/
theorem members_return_of_short {T : StorageType} {START LENGTH : Nat}
    (r : contiguous_bitmask_definition T START LENGTH)
    (hfit : START + LENGTH ≤ bits T) (hshort : LENGTH ≤ 30) {w : Nat} (hw : w < 2 ^ bits T)
    (x : Nat) :
    (bitfield.value r w).isSome ∧ (bitfield.set r w x).isSome
      ∧ (bitfield.inc r w).isSome ∧ (bitfield.dec r w).isSome
      ∧ (bitfield.add_assign r w x).isSome ∧ (bitfield.sub_assign r w x).isSome
      ∧ (bitfield.or_assign r w x).isSome ∧ (bitfield.and_assign r w x).isSome
      ∧ (bitfield.xor_assign r w x).isSome ∧ (bitfield.complement r w).isSome := by
  have hold := contiguous_bitmask_definition.get_value_of_short r hfit hshort hw
  have hset := fun v => contiguous_bitmask_definition.set_value_of_short r hfit hshort w v
  unfold bitfield.inc bitfield.dec bitfield.add_assign bitfield.sub_assign bitfield.or_assign
    bitfield.and_assign bitfield.xor_assign bitfield.complement bitfield.get bitfield.value
    bitfield.set
  simp [hold, hset]

/-! ## Two fields over one word -/

/-- Two short fitting fields with disjoint spans: a write through the first
does not change what the second reads. -/
theorem disjoint_fields_of_short {T : StorageType} {S1 L1 S2 L2 : Nat}
    (r1 : contiguous_bitmask_definition T S1 L1) (r2 : contiguous_bitmask_definition T S2 L2)
    (hfit1 : S1 + L1 ≤ bits T) (hfit2 : S2 + L2 ≤ bits T)
    (hshort1 : L1 ≤ 30) (hshort2 : L2 ≤ 30) (hdisj : S1 + L1 ≤ S2 ∨ S2 + L2 ≤ S1)
    {w : Nat} (hw : w < 2 ^ bits T) (v : Nat) :
    (r1.set_value w v).bind r2.get_value = r2.get_value w := by
  rw [contiguous_bitmask_definition.set_value_of_short r1 hfit1 hshort1, Option.some_bind,
    contiguous_bitmask_definition.get_value_of_short r2 hfit2 hshort2
      (field_written_lt v hfit1 hw),
    contiguous_bitmask_definition.get_value_of_short r2 hfit2 hshort2 hw]
  congr 1
  apply Nat.eq_of_testBit_eq
  intro i
  rw [testBit_field_read, testBit_field_read, testBit_field_written v _ hfit1 hw]
  by_cases hi : i < L2
  · have h1 : ¬ (S1 ≤ S2 + i ∧ S2 + i < S1 + L1) := by omega
    rw [if_neg h1]
  · simp [hi]

/-- A short fitting field whose span lies inside the span of another short
fitting field reads the corresponding slice of what the wider field reads. -/
theorem nested_fields_of_short {T : StorageType} {SA LA SB LB : Nat}
    (rA : contiguous_bitmask_definition T SA LA) (rB : contiguous_bitmask_definition T SB LB)
    (hfitB : SB + LB ≤ bits T) (hshortB : LB ≤ 30)
    (hstart : SB ≤ SA) (hend : SA + LA ≤ SB + LB) {w : Nat} (hw : w < 2 ^ bits T) :
    rA.get_value w = (rB.get_value w).map (fun b => b / 2 ^ (SA - SB) % 2 ^ LA) := by
  rw [contiguous_bitmask_definition.get_value_of_short rA (by omega) (by omega) hw,
    contiguous_bitmask_definition.get_value_of_short rB hfitB hshortB hw, Option.map_some']
  congr 1
  apply Nat.eq_of_testBit_eq
  intro i
  rw [testBit_field_read, testBit_field_read, testBit_field_read]
  by_cases hi : i < LA
  · have h1 : SA - SB + i < LB := by omega
    have h2 : SB + (SA - SB + i) = SA + i := by omega
    simp [hi, h1, h2]
  · simp [hi]

/-! ## Increment and decrement at the ends of the field's range -/

theorem two_pow_sub_one_mod {m n : Nat} (h : m ≤ n) : (2 ^ n - 1) % 2 ^ m = 2 ^ m - 1 := by
  apply Nat.eq_of_testBit_eq
  intro i
  rw [Nat.testBit_mod_two_pow, Nat.testBit_two_pow_sub_one, Nat.testBit_two_pow_sub_one]
  by_cases hi : i < m
  · have h1 : i < n := by omega
    simp [hi, h1]
  · simp [hi]

/-- The value `0 - 1`, converted to the storage type and cut to the field. -/
theorem to_T_sub_zero_one_mod (T : StorageType) {L : Nat} (h : L ≤ bits T) :
    to_T T (sub T 0 1) % 2 ^ L = 2 ^ L - 1 := by
  have hbp := bits_le_promoted_bits T
  have hp : 1 % 2 ^ promoted_bits T = 1 :=
    Nat.mod_eq_of_lt (Nat.one_lt_two_pow (by cases T <;> decide))
  unfold to_T sub
  rw [hp, Nat.zero_add, Nat.mod_mod_of_dvd _ (Nat.pow_dvd_pow 2 h),
    Nat.mod_mod_of_dvd _ (Nat.pow_dvd_pow 2 (by omega : L ≤ promoted_bits T)),
    two_pow_sub_one_mod (by omega : L ≤ promoted_bits T)]

/-- The value `(2 ^ L - 1) + 1`, converted to the storage type and cut to the
field. -/
theorem to_T_add_max_one_mod (T : StorageType) {L : Nat} (h : L ≤ bits T) :
    to_T T (add T (2 ^ L - 1) 1) % 2 ^ L = 0 := by
  have hbp := bits_le_promoted_bits T
  have hpos : 0 < 2 ^ L := Nat.pow_pos (by decide)
  unfold to_T add
  rw [Nat.mod_mod_of_dvd _ (Nat.pow_dvd_pow 2 h),
    Nat.mod_mod_of_dvd _ (Nat.pow_dvd_pow 2 (by omega : L ≤ promoted_bits T)),
    Nat.sub_add_cancel hpos, Nat.mod_self]

/-! ## Complement, repeated writes and field-to-field assignment on a short field -/

/-- What `operator~` returns is the complement, at the width of the storage
type, of what `value()` returns, and the storage word is left as it was; on a
short fitting field both return. -/
theorem complement_eq_map_value {T : StorageType} {START LENGTH : Nat}
    (r : contiguous_bitmask_definition T START LENGTH) (hfit : START + LENGTH ≤ bits T)
    (w : Nat) (hw : w < 2 ^ bits T) :
    bitfield.complement r w = (bitfield.value r w).map (fun g => (2 ^ bits T - 1 - g, w))
      ∧ (LENGTH ≤ 30 → bitfield.complement r w
          = some (2 ^ bits T - 1 - w / 2 ^ START % 2 ^ LENGTH, w)) := by
  have key : bitfield.complement r w
      = (bitfield.value r w).map (fun g => (2 ^ bits T - 1 - g, w)) := by
    unfold bitfield.complement bitfield.get bitfield.value
    cases h : r.get_value w with
    | none => rfl
    | some g =>
      simp only [Option.bind_eq_bind, Option.some_bind, Option.pure_def, Option.map_some']
      rw [to_T_bit_not T (get_value_lt_two_pow_bits r h)]
  refine ⟨key, fun hshort => ?_⟩
  rw [key]
  unfold bitfield.value
  rw [contiguous_bitmask_definition.get_value_of_short r hfit hshort hw]
  rfl

/-- On a short fitting range what `get_value` returns is below `2 ^ LENGTH`. -/
theorem get_value_lt_of_short {T : StorageType} {START LENGTH : Nat}
    (r : contiguous_bitmask_definition T START LENGTH)
    (hfit : START + LENGTH ≤ bits T) (hshort : LENGTH ≤ 30) {w : Nat} (hw : w < 2 ^ bits T) :
    ∃ g, r.get_value w = some g ∧ bitfield.value r w = some g
      ∧ bitfield.to_DATASTORE_TYPE r w = some g ∧ g < 2 ^ LENGTH :=
  ⟨_, contiguous_bitmask_definition.get_value_of_short r hfit hshort hw,
    contiguous_bitmask_definition.get_value_of_short r hfit hshort hw,
    contiguous_bitmask_definition.get_value_of_short r hfit hshort hw,
    Nat.mod_lt _ (Nat.pow_pos (by decide))⟩

/-- On a short fitting range a second write replaces the first. -/
theorem last_write_wins_of_short {T : StorageType} {START LENGTH : Nat}
    (r : contiguous_bitmask_definition T START LENGTH)
    (hfit : START + LENGTH ≤ bits T) (hshort : LENGTH ≤ 30) {w : Nat} (hw : w < 2 ^ bits T)
    (v1 v2 : Nat) :
    ∃ w2, r.set_value w v2 = some w2
      ∧ (r.set_value w v1).bind (fun w1 => r.set_value w1 v2) = some w2 := by
  refine ⟨_, contiguous_bitmask_definition.set_value_of_short r hfit hshort w v2, ?_⟩
  rw [contiguous_bitmask_definition.set_value_of_short r hfit hshort w v1, Option.some_bind,
    contiguous_bitmask_definition.set_value_of_short r hfit hshort]
  congr 1
  apply Nat.eq_of_testBit_eq
  intro i
  rw [testBit_field_written v2 i hfit (field_written_lt v1 hfit hw),
    testBit_field_written v2 i hfit hw, testBit_field_written v1 i hfit hw]
  by_cases h : START ≤ i ∧ i < START + LENGTH
  · rw [if_pos h, if_pos h]
  · rw [if_neg h, if_neg h, if_neg h]

/-- On a short fitting field `dst = src` writes the value read from the source
word into the destination word: the result is `set_value(d, get_value(s))`,
it agrees with `d` outside the field and reads the same value as `s`. -/
theorem assign_from_of_short {T : StorageType} {START LENGTH : Nat}
    (r : contiguous_bitmask_definition T START LENGTH)
    (hfit : START + LENGTH ≤ bits T) (hshort : LENGTH ≤ 30) {d s : Nat}
    (hd : d < 2 ^ bits T) (hs : s < 2 ^ bits T) :
    ∃ g d1, bitfield.value r s = some g ∧ bitfield.assign_from r d s = some d1
      ∧ r.set_value d g = some d1
      ∧ bitfield.value r d1 = some g
      ∧ ∀ i, ¬ (START ≤ i ∧ i < START + LENGTH) → d1.testBit i = d.testBit i := by
  have hsrc := contiguous_bitmask_definition.get_value_of_short r hfit hshort hs
  have hlt : s / 2 ^ START % 2 ^ LENGTH < 2 ^ LENGTH := Nat.mod_lt _ (Nat.pow_pos (by decide))
  obtain ⟨d1, h1, _, h2, _, h3⟩ := set_of_short r hfit hshort hd (s / 2 ^ START % 2 ^ LENGTH)
  refine ⟨_, d1, hsrc, ?_, h1, ?_, h3⟩
  · unfold bitfield.assign_from bitfield.to_DATASTORE_TYPE bitfield.value
    rw [hsrc]
    exact h1
  · rw [h2, Nat.mod_eq_of_lt hlt]

/-- On a short fitting field, `--` on a field that reads `0` stores
`2 ^ LENGTH - 1`, `++` on a field that reads `2 ^ LENGTH - 1` stores `0`, and
both keep the bits outside the field. -/
theorem inc_dec_of_short {T : StorageType} {START LENGTH : Nat}
    (r : contiguous_bitmask_definition T START LENGTH)
    (hfit : START + LENGTH ≤ bits T) (hshort : LENGTH ≤ 30) {w : Nat} (hw : w < 2 ^ bits T) :
    (bitfield.value r w = some 0 → ∃ w1, bitfield.dec r w = some w1
        ∧ bitfield.value r w1 = some (2 ^ LENGTH - 1)
        ∧ ∀ i, ¬ (START ≤ i ∧ i < START + LENGTH) → w1.testBit i = w.testBit i)
      ∧ (bitfield.value r w = some (2 ^ LENGTH - 1) → ∃ w1, bitfield.inc r w = some w1
        ∧ bitfield.value r w1 = some 0
        ∧ ∀ i, ¬ (START ≤ i ∧ i < START + LENGTH) → w1.testBit i = w.testBit i) := by
  have hlb : LENGTH ≤ bits T := by omega
  constructor
  · intro h0
    obtain ⟨w1, h1, _, h2, _, h3⟩ := set_of_short r hfit hshort hw (to_T T (sub T 0 1))
    refine ⟨w1, ?_, ?_, h3⟩
    · unfold bitfield.dec bitfield.get
      rw [h0]
      exact h1
    · rw [h2, to_T_sub_zero_one_mod T hlb]
  · intro hmax
    obtain ⟨w1, h1, _, h2, _, h3⟩ := set_of_short r hfit hshort hw
      (to_T T (add T (2 ^ LENGTH - 1) 1))
    refine ⟨w1, ?_, ?_, h3⟩
    · unfold bitfield.inc bitfield.get
      rw [hmax]
      exact h1
    · rw [h2, to_T_add_max_one_mod T hlb]

/-! ## The claims -/

/-- C1: the ranges `(uint32_t, 0, 32)`, `(uint32_t, 0, 31)` and
`(uint64_t, 0, 64)` pass both static assertions, yet `bitmask()` has no value
for them, where the claim promises `LENGTH` ones at bit `START`; the
documented example `(uint16_t, 2, 2)` does give `0x0c`. -/
theorem bitmask_undefined_on_long_field :
    field_u32_0_32.bitmask = none ∧ field_u32_0_31.bitmask = none
      ∧ field_u64_0_64.bitmask = none ∧ field_u16_2_2.bitmask = some 0x0c :=
  ⟨contiguous_bitmask_definition.bitmask_of_long _ (by decide),
    contiguous_bitmask_definition.bitmask_of_long _ (by decide),
    contiguous_bitmask_definition.bitmask_of_long _ (by decide), by decide⟩

/-- C2: on the whole-word field of a `uint32_t` the round trip
`get_value(set_value(w, v))` has no value for any `w` and `v`, where the claim
promises `v & 0xffffffff`. -/
theorem get_set_value_undefined_on_long_field (w v : Nat) :
    (field_u32_0_32.set_value w v).bind field_u32_0_32.get_value = none := by
  rw [contiguous_bitmask_definition.set_value_of_long _ (by decide)]
  rfl

/-- C3: for every range that fits its storage word, every word `w` and every
value `v`, `clear_bits(set_value(w, v))` equals `clear_bits(w)`, the same holds
through `bitfield::set`, and every word that `set_value` returns agrees with
`w` on each bit outside `[START, START + LENGTH)`; on a field of at most 30
bits the write does return a word. -/
theorem set_value_frame {T : StorageType} {START LENGTH : Nat}
    (r : contiguous_bitmask_definition T START LENGTH) (hfit : START + LENGTH ≤ bits T)
    (w v : Nat) (hw : w < 2 ^ bits T) :
    (r.set_value w v).bind r.clear_bits = r.clear_bits w
      ∧ (bitfield.set r w v).bind r.clear_bits = r.clear_bits w
      ∧ (∀ w1, r.set_value w v = some w1 →
          ∀ i, ¬ (START ≤ i ∧ i < START + LENGTH) → w1.testBit i = w.testBit i)
      ∧ (LENGTH ≤ 30 → ∃ w1, r.set_value w v = some w1) := by
  by_cases hshort : LENGTH ≤ 30
  · have hset := contiguous_bitmask_definition.set_value_of_short r hfit hshort w v
    have hm : (2 ^ LENGTH - 1) * 2 ^ START < 2 ^ bits T := ones_shifted_lt hfit
    have e2 : 2 ^ bits T - 1 - (2 ^ LENGTH - 1) * 2 ^ START
        = 2 ^ bits T - ((2 ^ LENGTH - 1) * 2 ^ START + 1) := by omega
    have hclear : (r.set_value w v).bind r.clear_bits = r.clear_bits w := by
      rw [hset, Option.some_bind, contiguous_bitmask_definition.clear_bits_of_short r hfit hshort,
        contiguous_bitmask_definition.clear_bits_of_short r hfit hshort]
      congr 1
      apply Nat.eq_of_testBit_eq
      intro i
      rw [Nat.testBit_and, Nat.testBit_and, testBit_field_written v i hfit hw, e2,
        Nat.testBit_two_pow_sub_succ hm, testBit_ones_shifted]
      by_cases h : START ≤ i ∧ i < START + LENGTH
      · simp [h]
      · simp [h]
    refine ⟨hclear, hclear, ?_, fun _ => ⟨_, hset⟩⟩
    intro w1 h1 i hi
    rw [hset] at h1
    rw [← Option.some.inj h1, testBit_field_written v i hfit hw, if_neg hi]
  · have hlong : 30 < LENGTH := by omega
    have hset := contiguous_bitmask_definition.set_value_of_long r hlong w v
    have hclear : (r.set_value w v).bind r.clear_bits = r.clear_bits w := by
      rw [hset, contiguous_bitmask_definition.clear_bits_of_long r hlong]
      rfl
    refine ⟨hclear, hclear, ?_, fun h => absurd h hshort⟩
    intro w1 h1
    rw [hset] at h1
    cases h1

/-- Witness of C3 on `uint8_t`, range `(2, 3)`, word `0xff`, value `0`: the
write gives `0xe3` and both sides of the frame equation are `0xe3`. -/
theorem set_value_frame_witness :
    2 + 3 ≤ bits .uint8_t ∧ 0xff < 2 ^ bits .uint8_t
      ∧ field_u8_2_3.set_value 0xff 0 = some 0xe3
      ∧ field_u8_2_3.clear_bits 0xff = some 0xe3
      ∧ (field_u8_2_3.set_value 0xff 0).bind field_u8_2_3.clear_bits
          = field_u8_2_3.clear_bits 0xff :=
  ⟨by decide, by decide, by decide, by decide,
    (set_value_frame field_u8_2_3 (by decide) 0xff 0 (by decide)).1⟩

/-- C4: on the whole-word field of a `uint32_t`, `set_value` fails for every
`w` and `v`, where the claim says that it never fails; the two documented
writes on short fields give `0x1c` and `0xaa11ccdd`. -/
theorem set_value_undefined_on_long_field :
    (∀ w v : Nat, field_u32_0_32.set_value w v = none)
      ∧ field_u8_2_3.set_value 0x00 0xff = some 0x1c
      ∧ field_u32_16_8.set_value 0xaabbccdd 0x11 = some 0xaa11ccdd :=
  ⟨fun w v => contiguous_bitmask_definition.set_value_of_long _ (by decide) w v,
    by decide, by decide⟩

/-- C5: on the whole-word field of a `uint32_t`, writing back the value just
read has no value for any `w`, where the claim promises `w`. -/
theorem set_get_value_undefined_on_long_field (w : Nat) :
    (field_u32_0_32.get_value w).bind (field_u32_0_32.set_value w) = none := by
  rw [contiguous_bitmask_definition.get_value_of_long _ (by decide)]
  rfl

/-- C6: on the whole-word field of a `uint32_t` neither `extract_bits` nor
`clear_bits` has a value, so their union is not `w`; the documented examples
with mask `0xf` give `0x5` and `0x50`. -/
theorem extract_clear_undefined_on_long_field :
    (∀ w : Nat, field_u32_0_32.extract_bits w = none ∧ field_u32_0_32.clear_bits w = none)
      ∧ field_u8_0_4.extract_bits 0x55 = some 0x5
      ∧ field_u8_0_4.clear_bits 0x55 = some 0x50 :=
  ⟨fun w => ⟨contiguous_bitmask_definition.extract_bits_of_long _ (by decide) w,
    contiguous_bitmask_definition.clear_bits_of_long _ (by decide) w⟩, by decide, by decide⟩

/-- C7: on the whole-word field of a `uint32_t`, `get_value` has no value for
any `w`, where the claim promises `(w div 2^0) mod 2^32`; the documented
example with mask `0xf0` gives `0xa`. -/
theorem get_value_undefined_on_long_field :
    (∀ w : Nat, field_u32_0_32.get_value w = none)
      ∧ field_u8_4_4.get_value 0xab = some 0xa :=
  ⟨fun w => contiguous_bitmask_definition.get_value_of_long _ (by decide) w, by decide⟩

/-- C8: on a 32-bit storage word shared by field A = `(0, 1)` and field
B = `(0, 5)`: after A is assigned `1`, reading B gives a value whose bit 0 is
set; after B is assigned `0`, reading A gives `0`. -/
theorem overlapping_fields_share_word (A : contiguous_bitmask_definition .uint32_t 0 1)
    (B : contiguous_bitmask_definition .uint32_t 0 5) (w : Nat)
    (hw : w < 2 ^ bits .uint32_t) :
    (∃ w1 b, bitfield.assign A w 1 = some w1 ∧ bitfield.value B w1 = some b ∧ b &&& 1 = 1)
      ∧ (∃ w0 a, bitfield.assign B w 0 = some w0 ∧ bitfield.value A w0 = some a ∧ a = 0) := by
  have hA : (0 : Nat) + 1 ≤ bits .uint32_t := by decide
  have hB : (0 : Nat) + 5 ≤ bits .uint32_t := by decide
  constructor
  · refine ⟨_, _, contiguous_bitmask_definition.set_value_of_short A hA (by decide) w 1,
      contiguous_bitmask_definition.get_value_of_short B hB (by decide)
        (field_written_lt 1 hA hw), ?_⟩
    rw [Nat.and_one_is_mod]
    have h := Nat.testBit_zero
      (((w &&& (2 ^ bits .uint32_t - 1 - (2 ^ 1 - 1) * 2 ^ 0)) ||| ((1 % 2 ^ 1) * 2 ^ 0))
        / 2 ^ 0 % 2 ^ 5)
    rw [testBit_field_read, testBit_field_written 1 _ hA hw] at h
    simpa using h.symm
  · refine ⟨_, _, contiguous_bitmask_definition.set_value_of_short B hB (by decide) w 0,
      contiguous_bitmask_definition.get_value_of_short A hA (by decide)
        (field_written_lt 0 hB hw), ?_⟩
    apply Nat.eq_of_testBit_eq
    intro i
    rw [testBit_field_read, testBit_field_written 0 _ hB hw]
    by_cases hi : i < 1
    · have h1 : 0 ≤ 0 + i ∧ 0 + i < 0 + 5 := by omega
      rw [if_pos h1]
      simp
    · simp [hi]

/-- Witness of C8 on the initial word `0xfffffffe` (bit 0 clear, all other
bits set). -/
theorem overlapping_fields_share_word_witness :
    0xfffffffe < 2 ^ bits .uint32_t
      ∧ (∃ w1 b, bitfield.assign field_u32_0_1 0xfffffffe 1 = some w1
          ∧ bitfield.value field_u32_0_5 w1 = some b ∧ b &&& 1 = 1)
      ∧ (∃ w0 a, bitfield.assign field_u32_0_5 0xfffffffe 0 = some w0
          ∧ bitfield.value field_u32_0_1 w0 = some a ∧ a = 0) :=
  ⟨by decide, overlapping_fields_share_word field_u32_0_1 field_u32_0_5 0xfffffffe (by decide)⟩

/-- C9: on the whole-word field of a `uint32_t`, `+=` has no result for any
word and operand, where the claim promises the sum modulo `2^32`; on the
field `(0, 4)` holding `5`, `+= 3` stores `8` and a following `+= 12` stores
`4`. -/
theorem add_assign_undefined_on_long_field :
    (∀ w x : Nat, bitfield.add_assign field_u32_0_32 w x = none)
      ∧ bitfield.add_assign field_u8_0_4 5 3 = some 8
      ∧ bitfield.add_assign field_u8_0_4 8 12 = some 4 := by
  refine ⟨fun w x => ?_, by decide, by decide⟩
  unfold bitfield.add_assign bitfield.get bitfield.value
  rw [contiguous_bitmask_definition.get_value_of_long _ (by decide)]
  rfl

/-- C10: the range `contiguous_bitmask_definition<uint8_t, 4294967295, 1>` is
accepted by both static assertions although `START + LENGTH` exceeds the 8
bits of the storage word, where the claim says that it is rejected. -/
theorem range_accepted_after_wrap :
    Nonempty (contiguous_bitmask_definition .uint8_t 4294967295 1)
      ∧ ¬ (4294967295 + 1 ≤ bits .uint8_t) :=
  ⟨⟨field_u8_wrapped⟩, by decide⟩

/-- C11: on the whole-word field of a `uint32_t`, `operator~` returns nothing
for any word, where the claim says that it returns the complement of the
field value; on the short field `(uint8_t, 4, 4)` over the word `0xab`,
`value()` is `0xa`, `operator~` returns `0xf5`, which is not the complement
`0x54` of the word, and the word stays `0xab`. -/
theorem complement_undefined_on_long_field :
    (∀ w : Nat, bitfield.complement field_u32_0_32 w = none)
      ∧ bitfield.value field_u8_4_4 0xab = some 0xa
      ∧ bitfield.complement field_u8_4_4 0xab = some (0xf5, 0xab) := by
  refine ⟨fun w => ?_, by decide, by decide⟩
  unfold bitfield.complement bitfield.get bitfield.value
  rw [contiguous_bitmask_definition.get_value_of_long _ (by decide)]
  rfl

/-- C12: on the whole-word field of a `uint32_t`, `/=` and `%=` have no result
for the divisor `1`, and `++` has no result either, where the claim says that
only a zero divisor fails; on the whole-word field of a `uint16_t` holding
`0xffff`, `*= 0xffff` has no result because the `int` product overflows.  On
the short field `(uint8_t, 2, 3)` holding `7` the divisor `0` fails and the
divisors `2` and `4` store `3`. -/
theorem div_assign_fails_beyond_zero_divisor :
    (∀ w : Nat, bitfield.div_assign field_u32_0_32 w 1 = none
        ∧ bitfield.mod_assign field_u32_0_32 w 1 = none
        ∧ bitfield.inc field_u32_0_32 w = none)
      ∧ bitfield.mul_assign field_u16_0_16 0xffff 0xffff = none
      ∧ bitfield.div_assign field_u8_2_3 0xff 0 = none
      ∧ bitfield.mod_assign field_u8_2_3 0xff 0 = none
      ∧ bitfield.div_assign field_u8_2_3 0xff 2 = some 0xef
      ∧ bitfield.mod_assign field_u8_2_3 0xff 4 = some 0xef := by
  refine ⟨fun w => ⟨?_, ?_, ?_⟩, by decide, by decide, by decide, by decide, by decide⟩
  · unfold bitfield.div_assign bitfield.get bitfield.value
    rw [contiguous_bitmask_definition.get_value_of_long _ (by decide)]
    rfl
  · unfold bitfield.mod_assign bitfield.get bitfield.value
    rw [contiguous_bitmask_definition.get_value_of_long _ (by decide)]
    rfl
  · unfold bitfield.inc bitfield.get bitfield.value
    rw [contiguous_bitmask_definition.get_value_of_long _ (by decide)]
    rfl

/-- C13: a register constructed from a raw value `x` converts back to `x`, its
stored word being `x` itself, and a default-constructed register converts to
`0`. -/
theorem register_raw_round_trip (TYPE : StorageType) (x : Nat) :
    (bitfield_union.from_STORAGE_TYPE x : bitfield_union TYPE).to_STORAGE_TYPE = x
      ∧ (bitfield_union.from_STORAGE_TYPE x : bitfield_union TYPE).bitfield_data_store.data = x
      ∧ (bitfield_union.default_ctor : bitfield_union TYPE).to_STORAGE_TYPE = 0
      ∧ (bitfield_data_store_t.from_TYPE x : bitfield_data_store_t TYPE).to_TYPE = x
      ∧ (bitfield_data_store_t.value_init : bitfield_data_store_t TYPE).to_TYPE = 0 :=
  ⟨rfl, rfl, rfl, rfl, rfl⟩

/-- C14: on a `uint32_t` the fields `(0, 31)` and `(31, 1)` are disjoint and
both accepted, yet reading the second after a write through the first has no
value for any word and value, while reading the second from `0x80000000`
gives `1`. -/
theorem disjoint_read_undefined_after_long_write :
    (∀ w v : Nat, (field_u32_0_31.set_value w v).bind field_u32_31_1.get_value = none)
      ∧ field_u32_31_1.get_value 0x80000000 = some 1 := by
  refine ⟨fun w v => ?_, by decide⟩
  rw [contiguous_bitmask_definition.set_value_of_long _ (by decide)]
  rfl

/-- C15: on a `uint32_t` the field `(0, 1)` lies inside the whole-word field
`(0, 32)`; the narrow field reads `1` from the word `1`, while the wide field
has no value for any word, so the slice of it named by the claim has none. -/
theorem nested_read_undefined_on_long_field :
    field_u32_0_1.get_value 1 = some 1
      ∧ (∀ w : Nat, (field_u32_0_32.get_value w).map (fun b => b / 2 ^ (0 - 0) % 2 ^ 1) = none) := by
  refine ⟨by decide, fun w => ?_⟩
  rw [contiguous_bitmask_definition.get_value_of_long _ (by decide)]
  rfl

/-- C16: on the 31-bit field `(0, 31)` of a `uint32_t` neither `get_value`
nor `value()` nor the implicit conversion returns a value for any word, where
the claim says that the value is below `2^31`; on the short field
`(uint8_t, 2, 3)` the word `0xff` reads `7`, which is below `2^3`. -/
theorem field_value_undefined_on_long_field :
    (∀ w : Nat, field_u32_0_31.get_value w = none
        ∧ bitfield.value field_u32_0_31 w = none
        ∧ bitfield.to_DATASTORE_TYPE field_u32_0_31 w = none)
      ∧ field_u8_2_3.get_value 0xff = some 7 ∧ 7 < 2 ^ 3 :=
  ⟨fun w => ⟨contiguous_bitmask_definition.get_value_of_long _ (by decide) w,
    contiguous_bitmask_definition.get_value_of_long _ (by decide) w,
    contiguous_bitmask_definition.get_value_of_long _ (by decide) w⟩, by decide, by decide⟩

/-- C17: on the whole-word field of a `uint32_t` neither a single write nor
two writes in a row return a word, for any word and values, where the claim
says that the second write wins; on the short field `(uint8_t, 2, 3)` writing
`0` and then `5` into `0xff` gives `0xf7`, as writing `5` alone does. -/
theorem repeated_write_undefined_on_long_field :
    (∀ w v1 v2 : Nat,
        (field_u32_0_32.set_value w v1).bind (fun w1 => field_u32_0_32.set_value w1 v2) = none
        ∧ field_u32_0_32.set_value w v2 = none)
      ∧ (field_u8_2_3.set_value 0xff 0).bind (fun w1 => field_u8_2_3.set_value w1 5) = some 0xf7
      ∧ field_u8_2_3.set_value 0xff 5 = some 0xf7 := by
  refine ⟨fun w v1 v2 => ⟨?_, contiguous_bitmask_definition.set_value_of_long _ (by decide) w v2⟩,
    by decide, by decide⟩
  rw [contiguous_bitmask_definition.set_value_of_long _ (by decide)]
  rfl

/-- C18: on the whole-word field of a `uint64_t`, neither `--` on the word
`0` nor `++` on the word `0xffffffffffffffff` returns a word, and `value()`
returns nothing for either word, where the claim says that the field wraps
to `2^64 - 1` and to `0`; the same holds for any word.  On the short field
`(uint16_t, 4, 8)`, `--` on `0xf00f` (field `0`) gives `0xffff` and `++` on
`0xffff` (field `0xff`) gives `0xf00f`, the bits outside the field kept. -/
theorem inc_dec_undefined_on_long_field :
    (∀ w : Nat, bitfield.dec field_u64_0_64 w = none
        ∧ bitfield.inc field_u64_0_64 w = none
        ∧ bitfield.value field_u64_0_64 w = none)
      ∧ bitfield.value field_u16_4_8 0xf00f = some 0
      ∧ bitfield.dec field_u16_4_8 0xf00f = some 0xffff
      ∧ bitfield.value field_u16_4_8 0xffff = some (2 ^ 8 - 1)
      ∧ bitfield.inc field_u16_4_8 0xffff = some 0xf00f := by
  refine ⟨fun w => ⟨?_, ?_, contiguous_bitmask_definition.get_value_of_long _ (by decide) w⟩,
    by decide, by decide, by decide, by decide⟩
  · unfold bitfield.dec bitfield.get bitfield.value
    rw [contiguous_bitmask_definition.get_value_of_long _ (by decide)]
    rfl
  · unfold bitfield.inc bitfield.get bitfield.value
    rw [contiguous_bitmask_definition.get_value_of_long _ (by decide)]
    rfl

/-- C19: on the whole-word field of a `uint32_t`, `dst = src` returns no
destination word for any two words, where the claim says that the destination
becomes `set_value(d, get_value(s))`; on the short field `(uint8_t, 2, 3)`
with destination `0xff` and source `0x08` the destination becomes `0xeb`,
which is `set_value(0xff, 2)`, and then reads `2` like the source. -/
theorem assign_from_undefined_on_long_field :
    (∀ d s : Nat, bitfield.assign_from field_u32_0_32 d s = none)
      ∧ bitfield.value field_u8_2_3 0x08 = some 2
      ∧ bitfield.assign_from field_u8_2_3 0xff 0x08 = some 0xeb
      ∧ field_u8_2_3.set_value 0xff 2 = some 0xeb
      ∧ bitfield.value field_u8_2_3 0xeb = some 2 := by
  refine ⟨fun d s => ?_, by decide, by decide, by decide, by decide⟩
  unfold bitfield.assign_from bitfield.to_DATASTORE_TYPE bitfield.value
  rw [contiguous_bitmask_definition.get_value_of_long _ (by decide)]
  rfl

end OpenBitfields
